import Mathlib

/-!
Shallow embedding of the pos-backend repository (NestJS/Mongo point-of-sale).

Monetary values are modelled as rationals (`ℚ`), stock and quantities as
integers (`ℤ`), timestamps as calendar dates with a millisecond-of-day
component.  Mongo documents live in plain lists; `findById` is the
first-match lookup that `Model.findById` performs on the unique `_id`.
-/

namespace POS

/-- A product variant (`ProductSchema` variant subdocument). -/
structure Variant where
  vid : String
  purchasedPrice : ℚ
  sellingPrice : ℚ
  stock : ℤ
deriving DecidableEq, Repr

/-- A product document (`ProductSchema`). -/
structure Product where
  pid : String
  name : String
  basePrice : ℚ
  purchasedPrice : ℚ
  sellingPrice : ℚ
  variants : List Variant
deriving DecidableEq, Repr

/-- The product collection. -/
abbrev Db := List Product

/-- `ProductService.findById`: Mongo `findById`, first document with the id. -/
def findById (db : Db) (id : String) : Option Product :=
  db.find? fun p => p.pid == id

/-- Outcome of `ProductService.updateStock`: `null` when the product is
missing, the `Insufficient stock` exception, or the updated collection. -/
inductive StockOutcome where
  | notFound
  | insufficient
  | ok (db : Db)
deriving DecidableEq, Repr

/-- `ProductService.updateStock`: reads the product, creates a default
variant with stock 0 when `variants` is empty, adds `stockChange` to the
first variant's stock, throws when the result would be negative, and
persists the updated variants array on the document with that id. -/
def updateStock (db : Db) (id : String) (stockChange : ℤ) : StockOutcome :=
  match findById db id with
  | none => .notFound
  | some product =>
    match product.variants with
    | [] =>
      let newStock := (0 : ℤ) + stockChange
      if newStock < 0 then .insufficient
      else .ok (db.map fun q =>
        if q.pid == id then
          { q with variants := [⟨"default", product.purchasedPrice, product.sellingPrice, newStock⟩] }
        else q)
    | v :: vs =>
      let newStock := v.stock + stockChange
      if newStock < 0 then .insufficient
      else .ok (db.map fun q =>
        if q.pid == id then { q with variants := { v with stock := newStock } :: vs }
        else q)

/-- A timestamp: calendar date plus milliseconds within the day. -/
structure Ts where
  year : ℕ
  month : ℕ
  day : ℕ
  ms : ℕ
deriving DecidableEq, Repr

/-- A calendar date (the `YYYY-MM-DD` part of a timestamp). -/
structure CalDate where
  year : ℕ
  month : ℕ
  day : ℕ
deriving DecidableEq, Repr

/-- Calendar date of a timestamp (`toISOString().split('T')[0]`). -/
def Ts.date (t : Ts) : CalDate := ⟨t.year, t.month, t.day⟩

/-- Chronological order on timestamps (Mongo `Date` comparison). -/
def tsLe (a b : Ts) : Prop :=
  a.year < b.year ∨ (a.year = b.year ∧ (a.month < b.month ∨ (a.month = b.month ∧
    (a.day < b.day ∨ (a.day = b.day ∧ a.ms ≤ b.ms)))))

instance (a b : Ts) : Decidable (tsLe a b) := by
  unfold tsLe; infer_instance

/-- Strict order on calendar dates. -/
def calLt (a b : CalDate) : Prop :=
  a.year < b.year ∨ (a.year = b.year ∧ (a.month < b.month ∨ (a.month = b.month ∧ a.day < b.day)))

instance (a b : CalDate) : Decidable (calLt a b) := by
  unfold calLt; infer_instance

/-- A persisted sale line item (`SaleSchema` item: product id, quantity,
unit price snapshot). -/
structure SaleItem where
  productId : String
  quantity : ℤ
  price : ℚ
deriving DecidableEq, Repr

/-- A persisted sale document (`SaleSchema`). -/
structure Sale where
  items : List SaleItem
  total : ℚ
  customerName : Option String
  createdAt : Ts
deriving DecidableEq, Repr

/-- One requested line of `CreateSaleDto.items`. -/
structure ReqItem where
  productId : String
  quantity : ℤ
deriving DecidableEq, Repr

/-- `CreateSaleDto`: requested items (product id and quantity only)
and an optional customer name. -/
structure CreateSaleDto where
  items : List ReqItem
  customerName : Option String
deriving DecidableEq, Repr

/-- The errors `NewSaleController.createSale` can raise.
`stockUpdateFailed` is the 500 `Failed to create sale` produced when the
phase-2 `updateStock` call throws its plain `Error`. -/
inductive SaleError where
  | emptySale
  | quantityNotPositive
  | productNotFound (id : String)
  | insufficientStock (name : String) (available requested : ℤ)
  | stockUpdateFailed
deriving DecidableEq, Repr

/-- Unit price used for a sale line: the first variant's selling price,
or the base price when the product has no variants. -/
def firstVariantPrice (p : Product) : ℚ :=
  match p.variants with
  | [] => p.basePrice
  | v :: _ => v.sellingPrice

/-- Stock used for the sale-time availability check: the first variant's
stock, or 0 when the product has no variants. -/
def firstVariantStock (p : Product) : ℤ :=
  match p.variants with
  | [] => 0
  | v :: _ => v.stock

/-- Phase 1 of `NewSaleController.createSale`: the loop over
`createSaleDto.items` that validates quantities, resolves products,
checks stock and accumulates the sale items and the running total. -/
def processItems (db : Db) : List ReqItem → List SaleItem → ℚ →
    Except SaleError (List SaleItem × ℚ)
  | [], acc, total => .ok (acc, total)
  | item :: rest, acc, total =>
    if item.quantity ≤ 0 then .error .quantityNotPositive
    else
      match findById db item.productId with
      | none => .error (.productNotFound item.productId)
      | some product =>
        if firstVariantStock product < item.quantity then
          .error (.insufficientStock product.name (firstVariantStock product) item.quantity)
        else
          processItems db rest (acc ++ [⟨item.productId, item.quantity, firstVariantPrice product⟩])
            (total + firstVariantPrice product * item.quantity)

/-- Phase 2 of `NewSaleController.createSale`: the loop calling
`updateStock(productId, -quantity)` for each requested item.  A `null`
return (product missing) is ignored; a thrown `Insufficient stock` error
aborts the loop, keeping the decrements already applied.  Returns the
resulting collection and whether the loop completed. -/
def applyUpdates (db : Db) : List ReqItem → Db × Bool
  | [] => (db, true)
  | item :: rest =>
    match updateStock db item.productId (-item.quantity) with
    | .notFound => applyUpdates db rest
    | .insufficient => (db, false)
    | .ok db2 => applyUpdates db2 rest

/-- The persistent state a sale request acts on: the product collection
and the sale collection. -/
structure SaleState where
  products : Db
  sales : List Sale
deriving DecidableEq, Repr

/-- `NewSaleController.createSale`: rejects an empty request, runs the
validation/pricing loop, then the stock-decrement loop, and finally
persists the sale via `SaleService.create` (timestamped `now`). -/
def createSale (st : SaleState) (dto : CreateSaleDto) (now : Ts) :
    Except SaleError Sale × SaleState :=
  if dto.items = [] then (.error .emptySale, st)
  else
    match processItems st.products dto.items [] 0 with
    | .error e => (.error e, st)
    | .ok (saleItems, total) =>
      match applyUpdates st.products dto.items with
      | (db2, false) => (.error .stockUpdateFailed, { st with products := db2 })
      | (db2, true) =>
        let sale : Sale := ⟨saleItems, total, dto.customerName, now⟩
        (.ok sale, { products := db2, sales := st.sales ++ [sale] })

/-! ### Sales reports (`SalesReportService`) -/

/-- `sales.reduce((sum, sale) => sum + sale.total, 0)`. -/
def sumTotals (sales : List Sale) : ℚ :=
  sales.foldl (fun sum s => sum + s.total) 0

/-- Result of `getSalesOverview`. -/
structure Overview where
  totalSales : ℕ
  totalRevenue : ℚ
  averageOrderValue : ℚ
  totalProducts : ℕ
deriving DecidableEq, Repr

/-- `SalesReportService.getSalesOverview`. -/
def getSalesOverview (sales : List Sale) (products : Db) : Overview :=
  let totalRevenue := sumTotals sales
  { totalSales := sales.length
    totalRevenue := totalRevenue
    averageOrderValue := if sales.length > 0 then totalRevenue / (sales.length : ℚ) else 0
    totalProducts := products.length }

/-- Midnight at the start of a calendar date (`setHours(0,0,0,0)`). -/
def dayStart (d : CalDate) : Ts := ⟨d.year, d.month, d.day, 0⟩

/-- Last millisecond of a calendar date (`setHours(23,59,59,999)`). -/
def dayEnd (d : CalDate) : Ts := ⟨d.year, d.month, d.day, 86399999⟩

/-- Result of `getDailySalesReport`. -/
structure DailyReport where
  date : CalDate
  totalSales : ℕ
  totalRevenue : ℚ
  averageOrderValue : ℚ
  sales : List Sale
deriving DecidableEq, Repr

/-- `SalesReportService.getDailySalesReport`: filters by
`createdAt ∈ [start-of-day, end-of-day]` and aggregates. -/
def getDailySalesReport (allSales : List Sale) (d : CalDate) : DailyReport :=
  let sales := allSales.filter fun s =>
    decide (tsLe (dayStart d) s.createdAt ∧ tsLe s.createdAt (dayEnd d))
  let totalRevenue := sumTotals sales
  { date := d
    totalSales := sales.length
    totalRevenue := totalRevenue
    averageOrderValue := if sales.length > 0 then totalRevenue / (sales.length : ℚ) else 0
    sales := sales }

/-- Leap year as computed by the JS `Date` (proleptic Gregorian). -/
def isLeapYear (y : ℕ) : Bool :=
  (y % 4 == 0 && y % 100 != 0) || y % 400 == 0

/-- Number of days in a month, the value of
`new Date(year, month, 0).getDate()` for a 1-based month. -/
def daysInMonth (y m : ℕ) : ℕ :=
  if m = 2 then (if isLeapYear y then 29 else 28)
  else if m = 4 ∨ m = 6 ∨ m = 9 ∨ m = 11 then 30
  else 31

/-- First instant of a calendar month (`new Date(year, month - 1, 1)`). -/
def monthStart (y m : ℕ) : Ts := ⟨y, m, 1, 0⟩

/-- Last millisecond of a calendar month
(`new Date(year, month, 0, 23, 59, 59, 999)`). -/
def monthEnd (y m : ℕ) : Ts := ⟨y, m, daysInMonth y m, 86399999⟩

/-- The `while (currentDate <= endDate)` loop of `getMonthlySalesReport`,
emitting the key of each day of the month starting from day `d`. -/
def monthKeyLoop (y m : ℕ) (d : ℕ) : List CalDate :=
  if h : d ≤ daysInMonth y m then ⟨y, m, d⟩ :: monthKeyLoop y m (d + 1)
  else []
termination_by daysInMonth y m + 1 - d
decreasing_by omega

/-- A per-day bucket (`{ sales, revenue }`). -/
structure DayStat where
  sales : ℕ
  revenue : ℚ
deriving DecidableEq, Repr

/-- A JS `Map` as an insertion-ordered association list. -/
abbrev AssocMap (α β : Type) := List (α × β)

/-- `Map.get`. -/
def getKey {α β : Type} [DecidableEq α] (l : AssocMap α β) (k : α) : Option β :=
  (l.find? fun e => decide (e.1 = k)).map (·.2)

/-- `Map.set`: replace in place when the key exists, append otherwise. -/
def setKey {α β : Type} [DecidableEq α] : AssocMap α β → α → β → AssocMap α β
  | [], k, v => [(k, v)]
  | e :: rest, k, v => if e.1 = k then (k, v) :: rest else e :: setKey rest k v

/-- The `sales.forEach` bucketing loop of `getMonthlySalesReport`. -/
def bucketSales (mstats : AssocMap CalDate DayStat) (sales : List Sale) :
    AssocMap CalDate DayStat :=
  sales.foldl (fun acc s =>
    let stats := (getKey acc s.createdAt.date).getD ⟨0, 0⟩
    setKey acc s.createdAt.date ⟨stats.sales + 1, stats.revenue + s.total⟩) mstats

/-- One `dailyStats` entry of the monthly report. -/
structure DailyStat where
  date : CalDate
  sales : ℕ
  revenue : ℚ
deriving DecidableEq, Repr

/-- Result of `getMonthlySalesReport`. -/
structure MonthlyReport where
  month : ℕ
  year : ℕ
  totalSales : ℕ
  totalRevenue : ℚ
  averageOrderValue : ℚ
  dailyStats : List DailyStat
deriving DecidableEq, Repr

/-- `SalesReportService.getMonthlySalesReport`. -/
def getMonthlySalesReport (allSales : List Sale) (m y : ℕ) : MonthlyReport :=
  let sales := allSales.filter fun s =>
    decide (tsLe (monthStart y m) s.createdAt ∧ tsLe s.createdAt (monthEnd y m))
  let totalRevenue := sumTotals sales
  let initStats : AssocMap CalDate DayStat := (monthKeyLoop y m 1).map fun k => (k, ⟨0, 0⟩)
  let finalStats := bucketSales initStats sales
  { month := m
    year := y
    totalSales := sales.length
    totalRevenue := totalRevenue
    averageOrderValue := if sales.length > 0 then totalRevenue / (sales.length : ℚ) else 0
    dailyStats := finalStats.map fun e => ⟨e.1, e.2.sales, e.2.revenue⟩ }

/-- One entry of the product sales report. -/
structure ProductReportEntry where
  productId : String
  name : String
  totalQuantitySold : ℤ
  totalRevenue : ℚ
  averagePrice : ℚ
deriving DecidableEq, Repr

/-- The body of the inner `sale.items.forEach` of `getProductSalesReport`:
skip items whose product no longer resolves, otherwise accumulate into the
per-product bucket keyed by the product's id. -/
def prodFoldItem (db : Db) (acc : AssocMap String ProductReportEntry) (item : SaleItem) :
    AssocMap String ProductReportEntry :=
  match findById db item.productId with
  | none => acc
  | some product =>
    let stats := (getKey acc product.pid).getD ⟨product.pid, product.name, 0, 0, 0⟩
    let qty := stats.totalQuantitySold + item.quantity
    let rev := stats.totalRevenue + item.price * item.quantity
    setKey acc product.pid ⟨stats.productId, stats.name, qty, rev, rev / (qty : ℚ)⟩

/-- The double `forEach` of `getProductSalesReport` over all sales. -/
def aggregateProducts (db : Db) (sales : List Sale) : AssocMap String ProductReportEntry :=
  sales.foldl (fun acc s => s.items.foldl (prodFoldItem db) acc) []

/-- The comparator `(a, b) => b.totalRevenue - a.totalRevenue`: `a` may
stay before `b` exactly when `a`'s revenue is at least `b`'s. -/
def revLe (a b : ProductReportEntry) : Bool :=
  decide (b.totalRevenue ≤ a.totalRevenue)

/-- `SalesReportService.getProductSalesReport`: aggregate, take the map's
values in insertion order, and stable-sort descending by revenue. -/
def getProductSalesReport (db : Db) (sales : List Sale) : List ProductReportEntry :=
  ((aggregateProducts db sales).map (·.2)).mergeSort revLe

/-! ### Auxiliary notions used by the verification -/

/-- Every variant of every product has non-negative stock. -/
def allStocksNonneg (db : Db) : Prop :=
  ∀ p ∈ db, ∀ v ∈ p.variants, 0 ≤ v.stock

instance (db : Db) : Decidable (allStocksNonneg db) := by
  unfold allStocksNonneg; infer_instance

/-- Run a sequence of `updateStock` calls; a caller that receives `null`
or catches the insufficient-stock error keeps the previous collection. -/
def runStockOps (db : Db) : List (String × ℤ) → Db
  | [] => db
  | op :: rest =>
    match updateStock db op.1 op.2 with
    | .ok db2 => runStockOps db2 rest
    | _ => runStockOps db rest

/-- Erase the first variant's stock value, keeping everything else: two
products agree under this map exactly when they differ at most in the
first variant's stock. -/
def stripFirstStock (p : Product) : Product :=
  { p with variants :=
      match p.variants with
      | [] => []
      | v :: vs => { v with stock := 0 } :: vs }

/-- The per-product bucket key a line item resolves to in
`getProductSalesReport` (`none` when the product reference is dangling). -/
def itemKey (db : Db) (it : SaleItem) : Option String :=
  (findById db it.productId).map (·.pid)

/-- Concrete variant: stock 5, selling price 10. -/
def exVariant : Variant := ⟨"v1", 8, 10, 5⟩

/-- Concrete product with one variant. -/
def exProduct : Product := ⟨"p1", "Phone", 12, 8, 10, [exVariant]⟩

/-- Concrete one-product catalog. -/
def exDb : Db := [exProduct]

/-- Concrete request timestamp. -/
def exTs : Ts := ⟨2024, 5, 10, 1000⟩

/-- Concrete initial state: one product, no sales. -/
def exState : SaleState := ⟨exDb, []⟩

/-- Two lines for the same product, 3 + 3 against stock 5. -/
def exDtoDouble : CreateSaleDto := ⟨[⟨"p1", 3⟩, ⟨"p1", 3⟩], none⟩

/-- A single line of quantity 3 against stock 5. -/
def exDtoSingle : CreateSaleDto := ⟨[⟨"p1", 3⟩], none⟩

/-- A single line of quantity 10 against stock 5. -/
def exDtoBig : CreateSaleDto := ⟨[⟨"p1", 10⟩], none⟩

/-! ### General lemmas about the embedded operations -/

theorem findById_some (db : Db) (id : String) (p : Product)
    (h : findById db id = some p) : p ∈ db ∧ p.pid = id := by
  unfold findById at h
  refine ⟨List.mem_of_find?_eq_some h, ?_⟩
  have := List.find?_some h
  simpa using this

theorem findById_map (db : Db) (id : String) (f : Product → Product)
    (hf : ∀ p, (f p).pid = p.pid) :
    findById (db.map f) id = (findById db id).map f := by
  induction db with
  | nil => rfl
  | cons p rest ih =>
    unfold findById at *
    cases hpid : p.pid == id with
    | true => simp [List.find?_cons, hf, hpid]
    | false =>
      simp only [List.map_cons, List.find?_cons, hf, hpid]
      exact ih

theorem sumTotals_eq (sales : List Sale) :
    sumTotals sales = (sales.map (·.total)).sum := by
  suffices h : ∀ a : ℚ, sales.foldl (fun sum s => sum + s.total) a
      = a + (sales.map (·.total)).sum by
    simpa using h 0
  induction sales with
  | nil => simp
  | cons s rest ih => intro a; simp [List.foldl_cons, ih]; ring

theorem updateStock_ok_nonneg (db db2 : Db) (id : String) (c : ℤ)
    (h : updateStock db id c = .ok db2) (hnn : allStocksNonneg db) :
    allStocksNonneg db2 := by
  unfold updateStock at h
  cases hf : findById db id with
  | none => rw [hf] at h; exact absurd h (by simp)
  | some p =>
    rw [hf] at h
    dsimp only at h
    obtain ⟨hmem, -⟩ := findById_some db id p hf
    cases hv : p.variants with
    | nil =>
      rw [hv] at h
      dsimp only at h
      split at h
      case isTrue => exact absurd h (by simp)
      case isFalse hneg =>
        have h2 := (StockOutcome.ok.injEq _ _).mp h
        subst h2
        intro q hq v hvmem
        obtain ⟨q0, hq0, rfl⟩ := List.mem_map.mp hq
        split at hvmem
        · have hv1 := List.mem_singleton.mp hvmem
          subst hv1
          exact Int.not_lt.mp hneg
        · exact hnn q0 hq0 v hvmem
    | cons v vs =>
      rw [hv] at h
      dsimp only at h
      split at h
      case isTrue => exact absurd h (by simp)
      case isFalse hneg =>
        have h2 := (StockOutcome.ok.injEq _ _).mp h
        subst h2
        intro q hq w hwmem
        obtain ⟨q0, hq0, rfl⟩ := List.mem_map.mp hq
        split at hwmem
        · rcases List.mem_cons.mp hwmem with hhd | htl
          · subst hhd
            exact Int.not_lt.mp hneg
          · exact hnn p hmem w (hv ▸ List.mem_cons_of_mem v htl)
        · exact hnn q0 hq0 w hwmem

theorem updateStock_insufficient_of_neg (db : Db) (id : String) (c : ℤ) (p : Product)
    (hf : findById db id = some p) (hneg : firstVariantStock p + c < 0) :
    updateStock db id c = .insufficient := by
  unfold updateStock
  rw [hf]
  dsimp only
  cases hv : p.variants with
  | nil =>
    have h0 : firstVariantStock p = 0 := by simp [firstVariantStock, hv]
    rw [h0] at hneg
    dsimp only
    split
    · rfl
    · next hc => exact absurd (by omega) hc
  | cons v vs =>
    have h0 : firstVariantStock p = v.stock := by simp [firstVariantStock, hv]
    rw [h0] at hneg
    dsimp only
    split
    · rfl
    · next hc => exact absurd (by omega) hc

/-! ### Claim theorems -/

/-- C7: `getSalesOverview` returns `totalSales` equal to the number of
sales, `totalRevenue` equal to the sum of their totals, and
`averageOrderValue` equal to `totalRevenue / totalSales`, defined as 0
when there are no sales. -/
theorem overview_counts_revenue_and_average (sales : List Sale) (products : Db) :
    (getSalesOverview sales products).totalSales = sales.length ∧
    (getSalesOverview sales products).totalRevenue = (sales.map (·.total)).sum ∧
    (getSalesOverview sales products).averageOrderValue =
      (if sales.length = 0 then 0 else (sales.map (·.total)).sum / (sales.length : ℚ)) := by
  refine ⟨rfl, sumTotals_eq sales, ?_⟩
  rcases Nat.eq_zero_or_pos sales.length with h | h
  · simp [getSalesOverview, h]
  · simp [getSalesOverview, Nat.pos_iff_ne_zero.mp h, h, sumTotals_eq]

/-- C2: starting from non-negative stocks, no sequence of `updateStock`
increments/decrements ever drives a variant's stock negative, and a
decrement that would go below zero yields the insufficient-stock error
(so the collection is left unchanged by the failed call). -/
theorem stock_never_negative (db : Db) (ops : List (String × ℤ)) (h : allStocksNonneg db) :
    allStocksNonneg (runStockOps db ops) ∧
    ∀ id c p, findById db id = some p → firstVariantStock p + c < 0 →
      updateStock db id c = .insufficient := by
  constructor
  · induction ops generalizing db with
    | nil => exact h
    | cons op rest ih =>
      unfold runStockOps
      cases hu : updateStock db op.1 op.2 with
      | ok db2 => exact ih db2 (updateStock_ok_nonneg db db2 op.1 op.2 hu h)
      | notFound => exact ih db h
      | insufficient => exact ih db h
  · intro id c p hf hneg
    exact updateStock_insufficient_of_neg db id c p hf hneg

/-- C2 witness. -/
theorem stock_never_negative_witness :
    allStocksNonneg exDb ∧
    (allStocksNonneg (runStockOps exDb [("p1", -3), ("p1", -3)]) ∧
     ∀ id c p, findById exDb id = some p → firstVariantStock p + c < 0 →
       updateStock exDb id c = .insufficient) :=
  ⟨by decide, stock_never_negative exDb [("p1", -3), ("p1", -3)] (by decide)⟩

/-- C9: a stock release (increment by `q ≥ 0`) on a variant with
non-negative stock never fails: the insufficient-stock branch is not
taken and the first variant's stock becomes the old stock plus `q`. -/
theorem release_always_succeeds (db : Db) (id : String) (q : ℤ) (p : Product)
    (v : Variant) (vs : List Variant)
    (hq : 0 ≤ q) (hf : findById db id = some p) (hv : p.variants = v :: vs)
    (hs : 0 ≤ v.stock) :
    ∃ db2, updateStock db id q = .ok db2 ∧
      findById db2 id = some { p with variants := { v with stock := v.stock + q } :: vs } := by
  have hneg : ¬ (v.stock + q < 0) := by omega
  refine ⟨db.map fun q' => if q'.pid == id
      then { q' with variants := { v with stock := v.stock + q } :: vs } else q', ?_, ?_⟩
  · unfold updateStock
    rw [hf]
    dsimp only
    rw [hv]
    dsimp only
    rw [if_neg hneg]
  · rw [findById_map]
    · rw [hf]
      obtain ⟨-, hpid⟩ := findById_some db id p hf
      simp [hpid]
    · intro p'
      by_cases hpid : p'.pid == id <;> simp [hpid]

/-- C9 witness. -/
theorem release_always_succeeds_witness :
    (0 : ℤ) ≤ 7 ∧ findById exDb "p1" = some exProduct ∧
    exProduct.variants = exVariant :: [] ∧ (0 : ℤ) ≤ exVariant.stock ∧
    ∃ db2, updateStock exDb "p1" 7 = .ok db2 ∧
      findById db2 "p1" =
        some { exProduct with variants := { exVariant with stock := exVariant.stock + 7 } :: [] } :=
  ⟨by decide, by decide, by decide, by decide,
    release_always_succeeds exDb "p1" 7 exProduct exVariant []
      (by decide) (by decide) (by decide) (by decide)⟩

/-- C8: the daily report contains exactly the sales whose `createdAt`
lies in the inclusive window from the first to the last millisecond of
the calendar date, i.e. whose date equals the requested date with a
time-of-day of at most 23:59:59.999, and its aggregates follow the same
formulas as the overview. -/
theorem daily_report_filters_calendar_day (allSales : List Sale) (d : CalDate) :
    (∀ s, s ∈ (getDailySalesReport allSales d).sales ↔
        s ∈ allSales ∧ tsLe (dayStart d) s.createdAt ∧ tsLe s.createdAt (dayEnd d)) ∧
    (∀ t : Ts, (tsLe (dayStart d) t ∧ tsLe t (dayEnd d)) ↔ (t.date = d ∧ t.ms ≤ 86399999)) ∧
    (getDailySalesReport allSales d).totalSales = (getDailySalesReport allSales d).sales.length ∧
    (getDailySalesReport allSales d).totalRevenue =
      ((getDailySalesReport allSales d).sales.map (·.total)).sum ∧
    (getDailySalesReport allSales d).averageOrderValue =
      (if (getDailySalesReport allSales d).sales.length = 0 then 0
       else (getDailySalesReport allSales d).totalRevenue /
         ((getDailySalesReport allSales d).sales.length : ℚ)) := by
  obtain ⟨dy, dm, dd⟩ := d
  refine ⟨?_, ?_, rfl, ?_, ?_⟩
  · intro s
    simp [getDailySalesReport, List.mem_filter]
  · intro t
    obtain ⟨ty, tm, td, tms⟩ := t
    simp only [tsLe, dayStart, dayEnd, Ts.date, CalDate.mk.injEq]
    constructor
    · rintro ⟨h1, h2⟩; omega
    · rintro ⟨⟨rfl, rfl, rfl⟩, h⟩; omega
  · exact sumTotals_eq _
  · by_cases h : (allSales.filter fun s =>
        decide (tsLe (dayStart ⟨dy, dm, dd⟩) s.createdAt ∧
          tsLe s.createdAt (dayEnd ⟨dy, dm, dd⟩))).length = 0
    · unfold getDailySalesReport
      dsimp only
      have h2 : ¬ ((allSales.filter fun s =>
          decide (tsLe (dayStart ⟨dy, dm, dd⟩) s.createdAt ∧
            tsLe s.createdAt (dayEnd ⟨dy, dm, dd⟩))).length > 0) := by omega
      rw [if_neg h2, if_pos h]
    · unfold getDailySalesReport
      dsimp only
      have h2 : (allSales.filter fun s =>
          decide (tsLe (dayStart ⟨dy, dm, dd⟩) s.createdAt ∧
            tsLe s.createdAt (dayEnd ⟨dy, dm, dd⟩))).length > 0 := by omega
      rw [if_pos h2, if_neg h]

theorem processItems_ok (db : Db) (items : List ReqItem) (acc : List SaleItem) (t : ℚ)
    (res : List SaleItem × ℚ) (h : processItems db items acc t = .ok res) :
    (∃ newItems,
      res.1 = acc ++ newItems ∧
      res.2 = t + (newItems.map fun i => i.price * (i.quantity : ℚ)).sum ∧
      (∀ it ∈ newItems, 0 < it.quantity ∧ ∃ p, findById db it.productId = some p ∧
        it.price = firstVariantPrice p ∧ it.quantity ≤ firstVariantStock p)) ∧
    (∀ req ∈ items, 0 < req.quantity ∧ ∃ p, findById db req.productId = some p ∧
      req.quantity ≤ firstVariantStock p) := by
  induction items generalizing acc t with
  | nil =>
    simp only [processItems] at h
    have h2 := (Except.ok.injEq _ _).mp h
    subst h2
    exact ⟨⟨[], by simp, by simp, by simp⟩, by simp⟩
  | cons item rest ih =>
    simp only [processItems] at h
    split at h
    case isTrue => exact absurd h (by simp)
    case isFalse hq =>
      cases hfp : findById db item.productId with
      | none => rw [hfp] at h; exact absurd h (by simp)
      | some p =>
        rw [hfp] at h
        dsimp only at h
        split at h
        case isTrue => exact absurd h (by simp)
        case isFalse hstock =>
          obtain ⟨⟨newItems, hres1, hres2, hall⟩, hreq⟩ := ih _ _ h
          refine ⟨⟨⟨item.productId, item.quantity, firstVariantPrice p⟩ :: newItems, ?_, ?_, ?_⟩, ?_⟩
          · rw [hres1]; simp
          · rw [hres2]; simp; ring
          · intro it hit
            rcases List.mem_cons.mp hit with rfl | htl
            · exact ⟨show 0 < item.quantity by omega, p, hfp, rfl,
                show item.quantity ≤ firstVariantStock p by omega⟩
            · exact hall it htl
          · intro req hreqmem
            rcases List.mem_cons.mp hreqmem with rfl | htl
            · exact ⟨by omega, p, hfp, by omega⟩
            · exact hreq req htl

/-- C3: every committed sale's persisted total is exactly the sum of its
line items' `price × quantity`, and every line's price is the snapshot
taken from the catalog at sale time (the resolved product's first
variant's selling price, or its base price when it has no variants). -/
theorem sale_total_is_snapshot_sum (st : SaleState) (dto : CreateSaleDto) (now : Ts)
    (sale : Sale) (st2 : SaleState) (h : createSale st dto now = (.ok sale, st2)) :
    sale.total = (sale.items.map fun i => i.price * (i.quantity : ℚ)).sum ∧
    ∀ it ∈ sale.items, ∃ p, findById st.products it.productId = some p ∧
      it.price = firstVariantPrice p := by
  unfold createSale at h
  split at h
  case isTrue => exact absurd h (by simp)
  case isFalse hne =>
    cases hpi : processItems st.products dto.items [] 0 with
    | error e => rw [hpi] at h; exact absurd h (by simp)
    | ok pr =>
      obtain ⟨saleItems, total⟩ := pr
      rw [hpi] at h
      dsimp only at h
      obtain ⟨⟨newItems, hres1, hres2, hall⟩, -⟩ := processItems_ok _ _ _ _ _ hpi
      dsimp only at hres1 hres2
      simp only [List.nil_append] at hres1
      subst hres1
      rcases hau : applyUpdates st.products dto.items with ⟨db2, b⟩
      rw [hau] at h
      cases b with
      | false =>
        dsimp only at h
        exact absurd ((Prod.mk.injEq _ _ _ _).mp h).1 (by simp)
      | true =>
        dsimp only at h
        obtain ⟨h1, -⟩ := (Prod.mk.injEq _ _ _ _).mp h
        have hsale := (Except.ok.injEq _ _).mp h1
        subst hsale
        constructor
        · show total = _
          rw [hres2]
          simp
        · intro it hit
          obtain ⟨-, p, hp, hpr, -⟩ := hall it hit
          exact ⟨p, hp, hpr⟩

/-- C3 witness. -/
theorem sale_total_is_snapshot_sum_witness :
    (∃ sale st2, createSale exState exDtoSingle exTs = (.ok sale, st2) ∧
      (sale.total = (sale.items.map fun i => i.price * (i.quantity : ℚ)).sum ∧
       ∀ it ∈ sale.items, ∃ p, findById exState.products it.productId = some p ∧
         it.price = firstVariantPrice p)) := by
  refine ⟨_, _, rfl, ?_⟩
  exact sale_total_is_snapshot_sum exState exDtoSingle exTs _ _ rfl

/-- C1 counterexample: a request of two lines of quantity 3 for the same
product against stock 5 passes the per-line checks (each sees stock 5),
then the second decrement fails mid-sequence; the first decrement is NOT
released: the variant's stock ends at 2, not 5, although no Sale record
is created.  This refutes "all already-applied decrements are released"
and "leaves every variant's stock unchanged". -/
theorem sale_rollback_counterexample :
    (createSale exState exDtoDouble exTs).1 = .error .stockUpdateFailed ∧
    (createSale exState exDtoDouble exTs).2.products =
      [{ exProduct with variants := [{ exVariant with stock := 2 }] }] ∧
    (createSale exState exDtoDouble exTs).2.products ≠ exState.products ∧
    (createSale exState exDtoDouble exTs).2.sales = [] := by
  refine ⟨rfl, rfl, ?_, rfl⟩
  decide

theorem processItems_ne_stockUpdateFailed (db : Db) (items : List ReqItem)
    (acc : List SaleItem) (t : ℚ) :
    processItems db items acc t ≠ .error .stockUpdateFailed := by
  induction items generalizing acc t with
  | nil => simp [processItems]
  | cons item rest ih =>
    simp only [processItems]
    split
    · simp
    · cases findById db item.productId with
      | none => simp
      | some p =>
        dsimp only
        split
        · simp
        · exact ih _ _

/-- C1 as amended: committing is all-or-nothing for the Sale record but
not for stock.  On any failure no Sale is persisted; a failure raised
before the decrement phase (any error other than the phase-2
`stockUpdateFailed`) leaves the product collection unchanged; a
mid-sequence decrement failure keeps the decrements already applied (the
collection ends in the partially-decremented state of the aborted loop)
instead of releasing them. -/
theorem sale_failure_persists_no_sale (st : SaleState) (dto : CreateSaleDto) (now : Ts)
    (e : SaleError) (h : (createSale st dto now).1 = .error e) :
    (createSale st dto now).2.sales = st.sales ∧
    (e ≠ .stockUpdateFailed → (createSale st dto now).2.products = st.products) ∧
    (e = .stockUpdateFailed →
      (createSale st dto now).2.products = (applyUpdates st.products dto.items).1) := by
  unfold createSale at h ⊢
  split at h
  case isTrue h2 =>
    rw [if_pos h2]
    have he := (Except.error.injEq _ _).mp h
    subst he
    refine ⟨rfl, fun _ => rfl, fun _ => ?_⟩
    rw [h2]
    rfl
  case isFalse hne =>
    rw [if_neg hne]
    cases hpi : processItems st.products dto.items [] 0 with
    | error e2 =>
      rw [hpi] at h
      dsimp only at h ⊢
      have he := (Except.error.injEq _ _).mp h
      subst he
      refine ⟨rfl, fun _ => rfl, fun habs => ?_⟩
      exact absurd (habs ▸ hpi) (processItems_ne_stockUpdateFailed _ _ _ _)
    | ok pr =>
      obtain ⟨saleItems, total⟩ := pr
      rw [hpi] at h
      dsimp only at h ⊢
      rcases hau : applyUpdates st.products dto.items with ⟨db2, b⟩
      rw [hau] at h
      cases b with
      | false =>
        dsimp only at h ⊢
        have he := (Except.error.injEq _ _).mp h
        subst he
        exact ⟨rfl, fun habs => absurd rfl habs, fun _ => rfl⟩
      | true =>
        dsimp only at h
        exact absurd h (by simp)

/-- C1 witness (phase-1 failure: quantity 10 against stock 5). -/
theorem sale_failure_persists_no_sale_witness :
    (createSale exState exDtoBig exTs).1 = .error (.insufficientStock "Phone" 5 10) ∧
    ((createSale exState exDtoBig exTs).2.sales = exState.sales ∧
     (SaleError.insufficientStock "Phone" 5 10 ≠ .stockUpdateFailed →
       (createSale exState exDtoBig exTs).2.products = exState.products) ∧
     (SaleError.insufficientStock "Phone" 5 10 = .stockUpdateFailed →
       (createSale exState exDtoBig exTs).2.products =
         (applyUpdates exState.products exDtoBig.items).1)) :=
  ⟨rfl, sale_failure_persists_no_sale exState exDtoBig exTs _ rfl⟩

/-- C4: a single-line sale for quantity `q > 0` against a product whose
first variant has stock `s`: when `s ≥ q` the sale succeeds with total
`q × sellingPrice` and the variant's stock becomes `s − q`; when `s < q`
it fails with `InsufficientStock` reporting `available = s` and
`requested = q`, and the state is unchanged. -/
theorem single_line_sale_outcome (st : SaleState) (pid : String) (q : ℤ)
    (cname : Option String) (now : Ts) (p : Product) (v : Variant) (vs : List Variant)
    (hf : findById st.products pid = some p) (hv : p.variants = v :: vs) (hq : 0 < q) :
    (q ≤ v.stock →
      ∃ sale st2, createSale st ⟨[⟨pid, q⟩], cname⟩ now = (.ok sale, st2) ∧
        sale.total = q * v.sellingPrice ∧
        sale.items = [⟨pid, q, v.sellingPrice⟩] ∧
        findById st2.products pid =
          some { p with variants := { v with stock := v.stock - q } :: vs } ∧
        st2.sales = st.sales ++ [sale]) ∧
    (v.stock < q →
      createSale st ⟨[⟨pid, q⟩], cname⟩ now =
        (.error (.insufficientStock p.name v.stock q), st)) := by
  have hstock : firstVariantStock p = v.stock := by simp [firstVariantStock, hv]
  have hprice : firstVariantPrice p = v.sellingPrice := by simp [firstVariantPrice, hv]
  constructor
  · intro hle
    have hpi : processItems st.products [⟨pid, q⟩] [] 0 =
        .ok ([⟨pid, q, v.sellingPrice⟩], 0 + v.sellingPrice * q) := by
      simp only [processItems]
      rw [if_neg (by omega), hf]
      dsimp only
      rw [hstock, hprice, if_neg (by omega)]
      simp [processItems]
    have hup : updateStock st.products pid (-q) =
        .ok (st.products.map fun q2 =>
          if q2.pid == pid then { q2 with variants := { v with stock := v.stock + -q } :: vs }
          else q2) := by
      unfold updateStock
      rw [hf]
      dsimp only
      rw [hv]
      dsimp only
      rw [if_neg (by omega)]
    have hau : applyUpdates st.products [⟨pid, q⟩] =
        (st.products.map fun q2 =>
          if q2.pid == pid then { q2 with variants := { v with stock := v.stock + -q } :: vs }
          else q2, true) := by
      simp only [applyUpdates]
      rw [hup]
    refine ⟨⟨[⟨pid, q, v.sellingPrice⟩], 0 + v.sellingPrice * q, cname, now⟩,
      ⟨st.products.map fun q2 =>
          if q2.pid == pid then { q2 with variants := { v with stock := v.stock + -q } :: vs }
          else q2,
        st.sales ++ [⟨[⟨pid, q, v.sellingPrice⟩], 0 + v.sellingPrice * q, cname, now⟩]⟩,
      ?_, ?_, rfl, ?_, rfl⟩
    · unfold createSale
      rw [if_neg (by simp), hpi]
      dsimp only
      rw [hau]
    · show 0 + v.sellingPrice * q = q * v.sellingPrice
      ring
    · show findById (st.products.map fun q2 =>
          if q2.pid == pid then { q2 with variants := { v with stock := v.stock + -q } :: vs }
          else q2) pid = _
      rw [findById_map]
      · rw [hf]
        obtain ⟨-, hpid⟩ := findById_some _ _ _ hf
        have hsub : v.stock + -q = v.stock - q := by ring
        simp [hpid, hsub]
      · intro p2
        by_cases hpid2 : p2.pid == pid <;> simp [hpid2]
  · intro hlt
    have hpi : processItems st.products [⟨pid, q⟩] [] 0 =
        .error (.insufficientStock p.name v.stock q) := by
      simp only [processItems]
      rw [if_neg (by omega), hf]
      dsimp only
      rw [hstock, hprice, if_pos (by omega)]
    unfold createSale
    rw [if_neg (by simp), hpi]

/-- C4 witness (success side: stock 5, quantity 3). -/
theorem single_line_sale_outcome_witness :
    findById exState.products "p1" = some exProduct ∧
    exProduct.variants = exVariant :: [] ∧ (0 : ℤ) < 3 ∧
    ((3 ≤ exVariant.stock →
      ∃ sale st2, createSale exState ⟨[⟨"p1", 3⟩], none⟩ exTs = (.ok sale, st2) ∧
        sale.total = 3 * exVariant.sellingPrice ∧
        sale.items = [⟨"p1", 3, exVariant.sellingPrice⟩] ∧
        findById st2.products "p1" =
          some { exProduct with variants := { exVariant with stock := exVariant.stock - 3 } :: [] } ∧
        st2.sales = exState.sales ++ [sale]) ∧
     (exVariant.stock < 3 →
      createSale exState ⟨[⟨"p1", 3⟩], none⟩ exTs =
        (.error (.insufficientStock exProduct.name exVariant.stock 3), exState))) :=
  ⟨rfl, rfl, by decide,
    single_line_sale_outcome exState "p1" 3 none exTs exProduct exVariant [] rfl rfl (by decide)⟩

/-! ### Association-map lemmas (JS `Map` semantics) -/

theorem getKey_cons_self {α β : Type} [DecidableEq α] (l : AssocMap α β) (k : α) (v : β) :
    getKey ((k, v) :: l) k = some v := by
  simp [getKey, List.find?_cons]

theorem getKey_cons_ne {α β : Type} [DecidableEq α] (l : AssocMap α β) (e : α × β) (k : α)
    (h : e.1 ≠ k) : getKey (e :: l) k = getKey l k := by
  simp [getKey, List.find?_cons, h]

theorem getKey_setKey_self {α β : Type} [DecidableEq α] (l : AssocMap α β) (k : α) (v : β) :
    getKey (setKey l k v) k = some v := by
  induction l with
  | nil => simp [setKey, getKey, List.find?]
  | cons e rest ih =>
    by_cases h : e.1 = k
    · rw [setKey, if_pos h]
      exact getKey_cons_self rest k v
    · rw [setKey, if_neg h]
      rw [getKey_cons_ne _ _ _ h]
      exact ih

theorem getKey_setKey_ne {α β : Type} [DecidableEq α] (l : AssocMap α β) (k k2 : α) (v : β)
    (h : k2 ≠ k) : getKey (setKey l k v) k2 = getKey l k2 := by
  induction l with
  | nil => simp [setKey, getKey, List.find?, Ne.symm h]
  | cons e rest ih =>
    by_cases he : e.1 = k
    · rw [setKey, if_pos he]
      rw [getKey_cons_ne _ _ _ (by simpa using Ne.symm h)]
      rw [getKey_cons_ne _ _ _ (by rw [he]; exact Ne.symm h)]
    · rw [setKey, if_neg he]
      by_cases he2 : e.1 = k2
      · rw [getKey, List.find?_cons, getKey, List.find?_cons]
        simp [he2]
      · rw [getKey_cons_ne _ _ _ he2, getKey_cons_ne _ _ _ he2]
        exact ih

theorem mem_setKey {α β : Type} [DecidableEq α] (l : AssocMap α β) (k : α) (v : β)
    (x : α × β) (h : x ∈ setKey l k v) : x = (k, v) ∨ x ∈ l := by
  induction l with
  | nil => simpa [setKey] using h
  | cons e rest ih =>
    by_cases he : e.1 = k
    · rw [setKey, if_pos he] at h
      rcases List.mem_cons.mp h with rfl | htl
      · exact Or.inl rfl
      · exact Or.inr (List.mem_cons_of_mem e htl)
    · rw [setKey, if_neg he] at h
      rcases List.mem_cons.mp h with rfl | htl
      · exact Or.inr (List.mem_cons_self _ _)
      · rcases ih htl with h1 | h2
        · exact Or.inl h1
        · exact Or.inr (List.mem_cons_of_mem e h2)

theorem keys_setKey_of_mem {α β : Type} [DecidableEq α] (l : AssocMap α β) (k : α) (v : β)
    (h : k ∈ l.map (·.1)) : (setKey l k v).map (·.1) = l.map (·.1) := by
  induction l with
  | nil => cases h
  | cons e rest ih =>
    by_cases he : e.1 = k
    · rw [setKey, if_pos he]
      simp [he]
    · rw [setKey, if_neg he]
      have hk : k ∈ rest.map (·.1) := by
        rcases List.mem_map.mp h with ⟨x, hx, hxk⟩
        rcases List.mem_cons.mp hx with rfl | htl
        · exact absurd hxk he
        · exact List.mem_map.mpr ⟨x, htl, hxk⟩
      simp only [List.map_cons]
      rw [ih hk]

theorem keys_setKey_sub {α β : Type} [DecidableEq α] (l : AssocMap α β) (k : α) (v : β)
    (x : α) (h : x ∈ (setKey l k v).map (·.1)) : x = k ∨ x ∈ l.map (·.1) := by
  rcases List.mem_map.mp h with ⟨e, he, hek⟩
  rcases mem_setKey l k v e he with rfl | hmem
  · exact Or.inl hek.symm
  · exact Or.inr (List.mem_map.mpr ⟨e, hmem, hek⟩)

theorem nodupKeys_setKey {α β : Type} [DecidableEq α] (l : AssocMap α β) (k : α) (v : β)
    (h : (l.map (·.1)).Nodup) : ((setKey l k v).map (·.1)).Nodup := by
  induction l with
  | nil => simp [setKey]
  | cons e rest ih =>
    simp only [List.map_cons, List.nodup_cons] at h
    by_cases he : e.1 = k
    · rw [setKey, if_pos he]
      simp only [List.map_cons, List.nodup_cons]
      exact ⟨he ▸ h.1, h.2⟩
    · rw [setKey, if_neg he]
      simp only [List.map_cons, List.nodup_cons]
      refine ⟨fun hmem => ?_, ih h.2⟩
      rcases keys_setKey_sub rest k v e.1 hmem with h1 | h2
      · exact he h1
      · exact h.1 h2

theorem getKey_of_mem_nodup {α β : Type} [DecidableEq α] (l : AssocMap α β) (k : α) (v : β)
    (hnd : (l.map (·.1)).Nodup) (h : (k, v) ∈ l) : getKey l k = some v := by
  induction l with
  | nil => cases h
  | cons e rest ih =>
    simp only [List.map_cons, List.nodup_cons] at hnd
    rcases List.mem_cons.mp h with rfl | htl
    · exact getKey_cons_self rest k v
    · have hne : e.1 ≠ k := by
        intro hcontra
        exact hnd.1 (hcontra ▸ List.mem_map.mpr ⟨(k, v), htl, rfl⟩)
      rw [getKey_cons_ne _ _ _ hne]
      exact ih hnd.2 htl

theorem getKey_const_map {α β : Type} [DecidableEq α] (keys : List α) (k : α) (c : β)
    (h : k ∈ keys) : getKey (keys.map fun k2 => (k2, c)) k = some c := by
  induction keys with
  | nil => cases h
  | cons k2 rest ih =>
    by_cases he : k2 = k
    · subst he
      exact getKey_cons_self _ k2 c
    · simp only [List.map_cons]
      rw [getKey_cons_ne _ _ _ he]
      exact ih (by rcases List.mem_cons.mp h with rfl | htl; exact absurd rfl he; exact htl)

/-! ### Monthly report lemmas -/

theorem monthKeyLoop_eq (y m d : ℕ) :
    monthKeyLoop y m d =
      (List.range (daysInMonth y m + 1 - d)).map (fun i => ⟨y, m, d + i⟩) := by
  suffices h : ∀ k d2, daysInMonth y m + 1 - d2 = k → monthKeyLoop y m d2 =
      (List.range (daysInMonth y m + 1 - d2)).map (fun i => ⟨y, m, d2 + i⟩) by
    exact h _ d rfl
  intro k
  induction k with
  | zero =>
    intro d2 hk
    rw [monthKeyLoop]
    have hd : ¬ d2 ≤ daysInMonth y m := by omega
    simp [hd, hk]
  | succ k ih =>
    intro d2 hk
    rw [monthKeyLoop]
    have hd : d2 ≤ daysInMonth y m := by omega
    rw [dif_pos hd, hk, List.range_succ_eq_map]
    simp only [List.map_cons, List.map_map]
    refine congrArg₂ _ (by simp) ?_
    have ih2 := ih (d2 + 1) (by omega)
    rw [show daysInMonth y m + 1 - (d2 + 1) = k by omega] at ih2
    rw [ih2]
    refine List.map_congr_left fun i _ => ?_
    have harith : d2 + 1 + i = d2 + Nat.succ i := by omega
    simp [Function.comp_apply, harith]

theorem bucketSales_keys (mstats : AssocMap CalDate DayStat) (sales : List Sale)
    (h : ∀ s ∈ sales, s.createdAt.date ∈ mstats.map (·.1)) :
    (bucketSales mstats sales).map (·.1) = mstats.map (·.1) := by
  induction sales generalizing mstats with
  | nil => rfl
  | cons s rest ih =>
    have hk := h s (List.mem_cons_self s rest)
    have hkeys := keys_setKey_of_mem mstats s.createdAt.date
      ⟨((getKey mstats s.createdAt.date).getD ⟨0, 0⟩).sales + 1,
        ((getKey mstats s.createdAt.date).getD ⟨0, 0⟩).revenue + s.total⟩ hk
    calc (bucketSales mstats (s :: rest)).map (·.1)
        = (bucketSales (setKey mstats s.createdAt.date
            ⟨((getKey mstats s.createdAt.date).getD ⟨0, 0⟩).sales + 1,
              ((getKey mstats s.createdAt.date).getD ⟨0, 0⟩).revenue + s.total⟩) rest).map (·.1) := rfl
      _ = (setKey mstats s.createdAt.date
            ⟨((getKey mstats s.createdAt.date).getD ⟨0, 0⟩).sales + 1,
              ((getKey mstats s.createdAt.date).getD ⟨0, 0⟩).revenue + s.total⟩).map (·.1) := by
          refine ih _ fun s2 hs2 => ?_
          rw [hkeys]
          exact h s2 (List.mem_cons_of_mem s hs2)
      _ = mstats.map (·.1) := hkeys

theorem bucketSales_untouched (mstats : AssocMap CalDate DayStat) (sales : List Sale)
    (k : CalDate) (h : ∀ s ∈ sales, s.createdAt.date ≠ k) :
    getKey (bucketSales mstats sales) k = getKey mstats k := by
  induction sales generalizing mstats with
  | nil => rfl
  | cons s rest ih =>
    calc getKey (bucketSales mstats (s :: rest)) k
        = getKey (bucketSales (setKey mstats s.createdAt.date
            ⟨((getKey mstats s.createdAt.date).getD ⟨0, 0⟩).sales + 1,
              ((getKey mstats s.createdAt.date).getD ⟨0, 0⟩).revenue + s.total⟩) rest) k := rfl
      _ = getKey (setKey mstats s.createdAt.date
            ⟨((getKey mstats s.createdAt.date).getD ⟨0, 0⟩).sales + 1,
              ((getKey mstats s.createdAt.date).getD ⟨0, 0⟩).revenue + s.total⟩) k :=
          ih _ fun s2 hs2 => h s2 (List.mem_cons_of_mem s hs2)
      _ = getKey mstats k :=
          getKey_setKey_ne mstats s.createdAt.date k _ (Ne.symm (h s (List.mem_cons_self s rest)))

theorem month_filter_date_mem (y m : ℕ) (s : Sale)
    (h1 : tsLe (monthStart y m) s.createdAt) (h2 : tsLe s.createdAt (monthEnd y m)) :
    s.createdAt.date ∈ monthKeyLoop y m 1 := by
  rw [monthKeyLoop_eq]
  simp only [tsLe, monthStart, monthEnd] at h1 h2
  have hy : s.createdAt.year = y := by omega
  have hm : s.createdAt.month = m := by omega
  have hd1 : 1 ≤ s.createdAt.day := by omega
  have hd2 : s.createdAt.day ≤ daysInMonth y m := by omega
  refine List.mem_map.mpr ⟨s.createdAt.day - 1, List.mem_range.mpr (by omega), ?_⟩
  simp only [Ts.date, CalDate.mk.injEq]
  omega

/-- C5: for a month `m` (1–12) and year `y`, the monthly report's
`dailyStats` has exactly one entry per calendar day of the month: its
dates are days 1 to `daysInMonth`, it has `daysInMonth` entries, each
date appears once, entries are sorted ascending by date, and a day on
which no sale occurred carries `{sales := 0, revenue := 0}`. -/
theorem monthly_report_dense_daily_stats (allSales : List Sale) (m y : ℕ)
    (h1 : 1 ≤ m) (h2 : m ≤ 12) :
    (getMonthlySalesReport allSales m y).dailyStats.map (·.date) =
      (List.range (daysInMonth y m)).map (fun i => ⟨y, m, i + 1⟩) ∧
    (getMonthlySalesReport allSales m y).dailyStats.length = daysInMonth y m ∧
    ((getMonthlySalesReport allSales m y).dailyStats.map (·.date)).Nodup ∧
    List.Pairwise (fun a b => calLt a.date b.date)
      (getMonthlySalesReport allSales m y).dailyStats ∧
    ∀ e ∈ (getMonthlySalesReport allSales m y).dailyStats,
      (∀ s ∈ allSales, s.createdAt.date ≠ e.date) → e.sales = 0 ∧ e.revenue = 0 := by
  have hn1 : daysInMonth y m + 1 - 1 = daysInMonth y m := by omega
  have hloop : monthKeyLoop y m 1 =
      (List.range (daysInMonth y m)).map (fun i => (⟨y, m, i + 1⟩ : CalDate)) := by
    rw [monthKeyLoop_eq, hn1]
    exact List.map_congr_left fun i _ => by rw [Nat.add_comm]
  set filtered := allSales.filter (fun s =>
    decide (tsLe (monthStart y m) s.createdAt ∧ tsLe s.createdAt (monthEnd y m))) with hfilterdef
  set initStats : AssocMap CalDate DayStat :=
    (monthKeyLoop y m 1).map (fun k => (k, ⟨0, 0⟩)) with hinitdef
  have hrep : (getMonthlySalesReport allSales m y).dailyStats =
      (bucketSales initStats filtered).map (fun e => ⟨e.1, e.2.sales, e.2.revenue⟩) := rfl
  have hkeys0 : initStats.map (·.1) = monthKeyLoop y m 1 := by
    rw [hinitdef, List.map_map]
    exact (List.map_congr_left fun k _ => rfl).trans (List.map_id _)
  have hdatemem : ∀ s ∈ filtered, s.createdAt.date ∈ initStats.map (·.1) := by
    intro s hs
    rw [hkeys0]
    rw [hfilterdef] at hs
    have hmf := List.mem_filter.mp hs
    have hcond := of_decide_eq_true hmf.2
    exact month_filter_date_mem y m s hcond.1 hcond.2
  have hkeys : (bucketSales initStats filtered).map (·.1) = monthKeyLoop y m 1 := by
    rw [bucketSales_keys initStats filtered hdatemem, hkeys0]
  have hinj : Function.Injective fun i => (⟨y, m, i + 1⟩ : CalDate) := by
    intro a b hab
    have := (CalDate.mk.injEq _ _ _ _ _ _).mp hab
    omega
  have hnd : ((bucketSales initStats filtered).map (·.1)).Nodup := by
    rw [hkeys, hloop]
    exact List.Nodup.map hinj (List.nodup_range _)
  have hdates : (getMonthlySalesReport allSales m y).dailyStats.map (·.date) =
      (List.range (daysInMonth y m)).map (fun i => ⟨y, m, i + 1⟩) := by
    rw [hrep, List.map_map]
    rw [show ((fun x : DailyStat => x.date) ∘
        fun e : CalDate × DayStat => (⟨e.1, e.2.sales, e.2.revenue⟩ : DailyStat)) =
        fun e : CalDate × DayStat => e.1 from rfl]
    rw [show (fun e : CalDate × DayStat => e.1) =
        fun e : CalDate × DayStat => e.1 from rfl]
    rw [hkeys, hloop]
  refine ⟨hdates, ?_, ?_, ?_, ?_⟩
  · have hlen := congrArg List.length hdates
    simpa using hlen
  · rw [hdates]
    exact List.Nodup.map hinj (List.nodup_range _)
  · have hp : ((getMonthlySalesReport allSales m y).dailyStats.map (·.date)).Pairwise calLt := by
      rw [hdates]
      refine List.pairwise_map.mpr ?_
      refine (List.pairwise_lt_range _).imp ?_
      intro a b hab
      exact Or.inr ⟨rfl, Or.inr ⟨rfl, show a + 1 < b + 1 by omega⟩⟩
    exact List.pairwise_map.mp hp
  · intro e he hnone
    rw [hrep] at he
    rcases List.mem_map.mp he with ⟨kv, hkv, rfl⟩
    have hknone : ∀ s ∈ filtered, s.createdAt.date ≠ kv.1 := by
      intro s hs
      have hsall : s ∈ allSales := by
        rw [hfilterdef] at hs
        exact (List.mem_filter.mp hs).1
      exact hnone s hsall
    have huntouched := bucketSales_untouched initStats filtered kv.1 hknone
    have hkmem : kv.1 ∈ monthKeyLoop y m 1 := by
      rw [← hkeys]
      exact List.mem_map.mpr ⟨kv, hkv, rfl⟩
    have hinit0 : getKey initStats kv.1 = some ⟨0, 0⟩ := by
      rw [hinitdef]
      exact getKey_const_map _ _ _ hkmem
    have hfinal := getKey_of_mem_nodup _ _ _ hnd hkv
    rw [huntouched, hinit0] at hfinal
    have h0 : (⟨0, 0⟩ : DayStat) = kv.2 := (Option.some.injEq _ _).mp hfinal
    exact ⟨congrArg DayStat.sales h0.symm, congrArg DayStat.revenue h0.symm⟩

/-- C5 witness (February 2024, no sales). -/
theorem monthly_report_dense_daily_stats_witness :
    1 ≤ 2 ∧ 2 ≤ 12 ∧
    ((getMonthlySalesReport [] 2 2024).dailyStats.map (·.date) =
      (List.range (daysInMonth 2024 2)).map (fun i => ⟨2024, 2, i + 1⟩) ∧
     (getMonthlySalesReport [] 2 2024).dailyStats.length = daysInMonth 2024 2 ∧
     ((getMonthlySalesReport [] 2 2024).dailyStats.map (·.date)).Nodup ∧
     List.Pairwise (fun a b => calLt a.date b.date)
       (getMonthlySalesReport [] 2 2024).dailyStats ∧
     ∀ e ∈ (getMonthlySalesReport [] 2 2024).dailyStats,
       (∀ s ∈ ([] : List Sale), s.createdAt.date ≠ e.date) → e.sales = 0 ∧ e.revenue = 0) :=
  ⟨by decide, by decide, monthly_report_dense_daily_stats [] 2 2024 (by decide) (by decide)⟩

/-! ### Product report lemmas -/

theorem getKey_mem {α β : Type} [DecidableEq α] (l : AssocMap α β) (k : α) (v : β)
    (h : getKey l k = some v) : (k, v) ∈ l := by
  unfold getKey at h
  cases hf : l.find? (fun e => decide (e.1 = k)) with
  | none => rw [hf] at h; cases h
  | some e =>
    rw [hf] at h
    have hmem := List.mem_of_find?_eq_some hf
    have hp := List.find?_some hf
    have h1 : e.1 = k := of_decide_eq_true hp
    have h2 : e.2 = v := (Option.some.injEq _ _).mp h
    have he : (k, v) = e := by rw [← h1, ← h2]
    exact he ▸ hmem

theorem prodFold_none (db : Db) (acc : AssocMap String ProductReportEntry) (it : SaleItem)
    (h : findById db it.productId = none) : prodFoldItem db acc it = acc := by
  simp [prodFoldItem, h]

theorem prodFold_some (db : Db) (acc : AssocMap String ProductReportEntry) (it : SaleItem)
    (p : Product) (h : findById db it.productId = some p) :
    prodFoldItem db acc it = setKey acc p.pid
      ⟨((getKey acc p.pid).getD ⟨p.pid, p.name, 0, 0, 0⟩).productId,
       ((getKey acc p.pid).getD ⟨p.pid, p.name, 0, 0, 0⟩).name,
       ((getKey acc p.pid).getD ⟨p.pid, p.name, 0, 0, 0⟩).totalQuantitySold + it.quantity,
       ((getKey acc p.pid).getD ⟨p.pid, p.name, 0, 0, 0⟩).totalRevenue + it.price * it.quantity,
       (((getKey acc p.pid).getD ⟨p.pid, p.name, 0, 0, 0⟩).totalRevenue + it.price * it.quantity) /
         ((((getKey acc p.pid).getD ⟨p.pid, p.name, 0, 0, 0⟩).totalQuantitySold + it.quantity : ℤ) : ℚ)⟩ := by
  simp only [prodFoldItem, h]

theorem prodFold_sums (db : Db) (items : List SaleItem)
    (acc : AssocMap String ProductReportEntry) (k : String) :
    ((getKey (items.foldl (prodFoldItem db) acc) k).map (·.totalQuantitySold)).getD 0 =
      ((getKey acc k).map (·.totalQuantitySold)).getD 0 +
        ((items.filter fun it => decide (itemKey db it = some k)).map (·.quantity)).sum ∧
    ((getKey (items.foldl (prodFoldItem db) acc) k).map (·.totalRevenue)).getD 0 =
      ((getKey acc k).map (·.totalRevenue)).getD 0 +
        ((items.filter fun it => decide (itemKey db it = some k)).map
          fun it => it.price * (it.quantity : ℚ)).sum := by
  induction items generalizing acc with
  | nil => simp
  | cons it rest ih =>
    simp only [List.foldl_cons, List.filter_cons]
    cases hfind : findById db it.productId with
    | none =>
      have hdec : decide (itemKey db it = some k) = false := by simp [itemKey, hfind]
      rw [prodFold_none db acc it hfind]
      simp only [hdec]
      simpa using ih acc
    | some p =>
      have hik : itemKey db it = some p.pid := by simp [itemKey, hfind]
      rw [prodFold_some db acc it p hfind]
      by_cases hk : p.pid = k
      · subst hk
        have hdec : decide (itemKey db it = some p.pid) = true := by simp [hik]
        simp only [hdec, if_true]
        obtain ⟨ih1, ih2⟩ := ih (setKey acc p.pid _)
        constructor
        · rw [ih1, getKey_setKey_self]
          cases hg : getKey acc p.pid <;> simp [hg] <;> ring
        · rw [ih2, getKey_setKey_self]
          cases hg : getKey acc p.pid <;> simp [hg] <;> ring
      · have hdec : decide (itemKey db it = some k) = false := by simp [hik, hk]
        simp only [hdec]
        obtain ⟨ih1, ih2⟩ := ih (setKey acc p.pid _)
        rw [ih1, ih2, getKey_setKey_ne acc p.pid k _ (Ne.symm hk)]
        simp

theorem prodFold_entries (db : Db) (items : List SaleItem)
    (acc : AssocMap String ProductReportEntry)
    (hpos : ∀ it ∈ items, 0 < it.quantity)
    (hacc : ∀ e ∈ acc, e.2.productId = e.1 ∧ 0 ≤ e.2.totalQuantitySold ∧
      e.2.averagePrice * (e.2.totalQuantitySold : ℚ) = e.2.totalRevenue) :
    ∀ e ∈ items.foldl (prodFoldItem db) acc,
      e.2.productId = e.1 ∧ 0 ≤ e.2.totalQuantitySold ∧
      e.2.averagePrice * (e.2.totalQuantitySold : ℚ) = e.2.totalRevenue := by
  induction items generalizing acc with
  | nil => exact hacc
  | cons it rest ih =>
    simp only [List.foldl_cons]
    have hitpos : 0 < it.quantity := hpos it (List.mem_cons_self it rest)
    have hrestpos : ∀ it2 ∈ rest, 0 < it2.quantity :=
      fun it2 h2 => hpos it2 (List.mem_cons_of_mem it h2)
    cases hfind : findById db it.productId with
    | none =>
      rw [prodFold_none db acc it hfind]
      exact ih acc hrestpos hacc
    | some p =>
      rw [prodFold_some db acc it p hfind]
      refine ih _ hrestpos ?_
      intro e he
      rcases mem_setKey _ _ _ _ he with rfl | hmem
      · have hstats : ((getKey acc p.pid).getD ⟨p.pid, p.name, 0, 0, 0⟩).productId = p.pid ∧
            0 ≤ ((getKey acc p.pid).getD ⟨p.pid, p.name, 0, 0, 0⟩).totalQuantitySold := by
          cases hg : getKey acc p.pid with
          | none => simp
          | some v =>
            have hv := hacc (p.pid, v) (getKey_mem acc p.pid v hg)
            simp only [Option.getD_some]
            exact ⟨hv.1, hv.2.1⟩
        have hqpos : (0 : ℤ) <
            ((getKey acc p.pid).getD ⟨p.pid, p.name, 0, 0, 0⟩).totalQuantitySold + it.quantity := by
          have := hstats.2
          omega
        refine ⟨hstats.1, le_of_lt hqpos, ?_⟩
        have hne : ((((getKey acc p.pid).getD ⟨p.pid, p.name, 0, 0, 0⟩).totalQuantitySold +
            it.quantity : ℤ) : ℚ) ≠ 0 := by
          rw [Int.cast_ne_zero]
          omega
        exact div_mul_cancel₀ _ hne
      · exact hacc e hmem

theorem prodFold_nodupKeys (db : Db) (items : List SaleItem)
    (acc : AssocMap String ProductReportEntry) (h : (acc.map (·.1)).Nodup) :
    ((items.foldl (prodFoldItem db) acc).map (·.1)).Nodup := by
  induction items generalizing acc with
  | nil => exact h
  | cons it rest ih =>
    simp only [List.foldl_cons]
    cases hfind : findById db it.productId with
    | none => rw [prodFold_none db acc it hfind]; exact ih acc h
    | some p =>
      rw [prodFold_some db acc it p hfind]
      exact ih _ (nodupKeys_setKey acc p.pid _ h)

theorem aggregateProducts_eq_flat (db : Db) (sales : List Sale) :
    aggregateProducts db sales = (sales.flatMap (·.items)).foldl (prodFoldItem db) [] := by
  suffices h : ∀ (acc : AssocMap String ProductReportEntry),
      sales.foldl (fun a s => s.items.foldl (prodFoldItem db) a) acc =
        (sales.flatMap (·.items)).foldl (prodFoldItem db) acc from h []
  induction sales with
  | nil => intro acc; rfl
  | cons s rest ih =>
    intro acc
    simp only [List.foldl_cons, List.flatMap_cons, List.foldl_append]
    exact ih _

/-- C6: the product report aggregates, per product, the total quantity
and revenue of all line items resolving to that product; every entry's
`averagePrice × totalQuantitySold` reconstructs its `totalRevenue`; the
output is the aggregation map's values (first-occurrence order) sorted
descending by `totalRevenue`, with tied entries keeping their input
order (any tied pair that is a sublist of the values list stays a
sublist of the report). -/
theorem product_report_properties (db : Db) (sales : List Sale)
    (hpos : ∀ s ∈ sales, ∀ it ∈ s.items, 0 < it.quantity) :
    List.Pairwise (fun a b => b.totalRevenue ≤ a.totalRevenue) (getProductSalesReport db sales) ∧
    (getProductSalesReport db sales).Perm ((aggregateProducts db sales).map (·.2)) ∧
    (∀ r ∈ getProductSalesReport db sales,
      r.totalQuantitySold = (((sales.flatMap (·.items)).filter
          fun it => decide (itemKey db it = some r.productId)).map (·.quantity)).sum ∧
      r.totalRevenue = (((sales.flatMap (·.items)).filter
          fun it => decide (itemKey db it = some r.productId)).map
            fun it => it.price * (it.quantity : ℚ)).sum ∧
      r.averagePrice * (r.totalQuantitySold : ℚ) = r.totalRevenue) ∧
    (∀ a b, List.Sublist [a, b] ((aggregateProducts db sales).map (·.2)) →
      a.totalRevenue = b.totalRevenue →
      List.Sublist [a, b] (getProductSalesReport db sales)) := by
  have htrans : ∀ (a b c : ProductReportEntry), revLe a b → revLe b c → revLe a c := by
    intro a b c hab hbc
    simp only [revLe, decide_eq_true_eq] at *
    exact le_trans hbc hab
  have htotal : ∀ (a b : ProductReportEntry), revLe a b || revLe b a := by
    intro a b
    simp only [revLe, Bool.or_eq_true, decide_eq_true_eq]
    exact le_total b.totalRevenue a.totalRevenue
  have hflatpos : ∀ it ∈ sales.flatMap (·.items), 0 < it.quantity := by
    intro it hit
    rcases List.mem_flatMap.mp hit with ⟨s, hs, hi⟩
    exact hpos s hs it hi
  have hentries := prodFold_entries db (sales.flatMap (·.items)) [] hflatpos (by simp)
  have hnodup := prodFold_nodupKeys db (sales.flatMap (·.items)) [] (by simp)
  refine ⟨?_, ?_, ?_, ?_⟩
  · have hs := List.sorted_mergeSort htrans htotal ((aggregateProducts db sales).map (·.2))
    refine hs.imp ?_
    intro a b hab
    simpa [revLe, decide_eq_true_eq] using hab
  · exact List.mergeSort_perm _ revLe
  · intro r hr
    have hrv : r ∈ (aggregateProducts db sales).map (·.2) := List.mem_mergeSort.mp hr
    rcases List.mem_map.mp hrv with ⟨e, he, hre⟩
    rw [aggregateProducts_eq_flat] at he
    have hinv := hentries e he
    have hget : getKey ((sales.flatMap (·.items)).foldl (prodFoldItem db) []) e.1 = some e.2 := by
      refine getKey_of_mem_nodup _ _ _ hnodup ?_
      simpa using he
    obtain ⟨hsum1, hsum2⟩ := prodFold_sums db (sales.flatMap (·.items)) [] e.1
    rw [hget] at hsum1 hsum2
    simp only [Option.map_some', Option.getD_some] at hsum1 hsum2
    simp only [getKey, List.find?_nil, Option.map_none', Option.getD_none] at hsum1 hsum2
    have hkey : r.productId = e.1 := by rw [← hre]; exact hinv.1
    refine ⟨?_, ?_, ?_⟩
    · rw [hkey, ← hre]
      simpa using hsum1
    · rw [hkey, ← hre]
      simpa using hsum2
    · rw [← hre]
      exact hinv.2.2
  · intro a b hsub hrev
    refine List.sublist_mergeSort htrans htotal ?_ hsub
    refine List.pairwise_pair.mpr ?_
    simp [revLe, hrev]

/-- C6 witness: one sale of two line items for the catalog product. -/
theorem product_report_properties_witness :
    (∀ s ∈ [Sale.mk [⟨"p1", 2, 10⟩, ⟨"p1", 1, 10⟩] 30 none exTs],
      ∀ it ∈ s.items, 0 < it.quantity) ∧
    (List.Pairwise (fun a b => b.totalRevenue ≤ a.totalRevenue)
      (getProductSalesReport exDb [Sale.mk [⟨"p1", 2, 10⟩, ⟨"p1", 1, 10⟩] 30 none exTs]) ∧
    (getProductSalesReport exDb [Sale.mk [⟨"p1", 2, 10⟩, ⟨"p1", 1, 10⟩] 30 none exTs]).Perm
      ((aggregateProducts exDb [Sale.mk [⟨"p1", 2, 10⟩, ⟨"p1", 1, 10⟩] 30 none exTs]).map (·.2)) ∧
    (∀ r ∈ getProductSalesReport exDb [Sale.mk [⟨"p1", 2, 10⟩, ⟨"p1", 1, 10⟩] 30 none exTs],
      r.totalQuantitySold =
        ((([Sale.mk [⟨"p1", 2, 10⟩, ⟨"p1", 1, 10⟩] 30 none exTs].flatMap (·.items)).filter
          fun it => decide (itemKey exDb it = some r.productId)).map (·.quantity)).sum ∧
      r.totalRevenue =
        ((([Sale.mk [⟨"p1", 2, 10⟩, ⟨"p1", 1, 10⟩] 30 none exTs].flatMap (·.items)).filter
          fun it => decide (itemKey exDb it = some r.productId)).map
            fun it => it.price * (it.quantity : ℚ)).sum ∧
      r.averagePrice * (r.totalQuantitySold : ℚ) = r.totalRevenue) ∧
    (∀ a b, List.Sublist [a, b] ((aggregateProducts exDb
        [Sale.mk [⟨"p1", 2, 10⟩, ⟨"p1", 1, 10⟩] 30 none exTs]).map (·.2)) →
      a.totalRevenue = b.totalRevenue →
      List.Sublist [a, b]
        (getProductSalesReport exDb [Sale.mk [⟨"p1", 2, 10⟩, ⟨"p1", 1, 10⟩] 30 none exTs]))) :=
  ⟨by decide, product_report_properties exDb
    [Sale.mk [⟨"p1", 2, 10⟩, ⟨"p1", 1, 10⟩] 30 none exTs] (by decide)⟩

/-! ### First-variant-only lemmas -/

theorem strip_pid (q : Product) : (stripFirstStock q).pid = q.pid := rfl

theorem strip_variants_nil (q : Product) :
    (stripFirstStock q).variants = [] ↔ q.variants = [] := by
  cases hv : q.variants <;> simp [stripFirstStock, hv]

theorem updateStock_strip (orig db db2 : Db) (id : String) (c : ℤ)
    (hnd : (orig.map (·.pid)).Nodup)
    (hstrip : db.map stripFirstStock = orig.map stripFirstStock)
    (hne : ∀ p, findById orig id = some p → p.variants ≠ [])
    (h : updateStock db id c = .ok db2) :
    db2.map stripFirstStock = orig.map stripFirstStock := by
  have hpids : db.map (·.pid) = orig.map (·.pid) := by
    have h1 := congrArg (List.map (fun p : Product => p.pid)) hstrip
    rw [List.map_map, List.map_map] at h1
    calc db.map (·.pid)
        = db.map ((fun p : Product => p.pid) ∘ stripFirstStock) :=
          List.map_congr_left fun q _ => rfl
      _ = orig.map ((fun p : Product => p.pid) ∘ stripFirstStock) := h1
      _ = orig.map (·.pid) := List.map_congr_left fun q _ => rfl
  have hdbnd : (db.map (·.pid)).Nodup := hpids ▸ hnd
  unfold updateStock at h
  cases hf : findById db id with
  | none => rw [hf] at h; exact absurd h (by simp)
  | some p =>
    rw [hf] at h
    dsimp only at h
    obtain ⟨hpmem, hppid⟩ := findById_some db id p hf
    have hstripmem : stripFirstStock p ∈ orig.map stripFirstStock := by
      rw [← hstrip]
      exact List.mem_map.mpr ⟨p, hpmem, rfl⟩
    rcases List.mem_map.mp hstripmem with ⟨q0, hq0mem, hq0eq⟩
    have hq0pid : q0.pid = id := by
      have h2 := congrArg Product.pid hq0eq
      rw [strip_pid, strip_pid] at h2
      rw [h2, hppid]
    obtain ⟨p0, hp0⟩ : ∃ p0, findById orig id = some p0 := by
      have hsome : (orig.find? fun x => x.pid == id).isSome := by
        rw [List.find?_isSome]
        exact ⟨q0, hq0mem, by simp [hq0pid]⟩
      exact Option.isSome_iff_exists.mp hsome
    obtain ⟨hp0mem, hp0pid⟩ := findById_some orig id p0 hp0
    have hq0p0 : q0 = p0 := by
      refine List.inj_on_of_nodup_map hnd hq0mem hp0mem ?_
      show q0.pid = p0.pid
      rw [hq0pid, hp0pid]
    have hpvar : p.variants ≠ [] := by
      intro hnil
      apply hne p0 hp0
      rw [← hq0p0]
      rw [← strip_variants_nil, hq0eq, strip_variants_nil]
      exact hnil
    cases hv : p.variants with
    | nil => exact absurd hv hpvar
    | cons v vs =>
      rw [hv] at h
      dsimp only at h
      split at h
      case isTrue => exact absurd h (by simp)
      case isFalse hneg =>
        have h2 := (StockOutcome.ok.injEq _ _).mp h
        subst h2
        rw [← hstrip, List.map_map]
        refine List.map_congr_left fun q hq => ?_
        by_cases hqpid : q.pid == id
        · have hqeq : q = p := by
            refine List.inj_on_of_nodup_map hdbnd hq hpmem ?_
            show q.pid = p.pid
            have hq2 : q.pid = id := by simpa using hqpid
            rw [hq2, hppid]
          subst hqeq
          simp only [Function.comp_apply, hqpid, if_true]
          simp [stripFirstStock, hv]
        · simp only [Function.comp_apply]
          rw [if_neg (by simpa using hqpid)]

theorem applyUpdates_strip (orig : Db) (items : List ReqItem)
    (hnd : (orig.map (·.pid)).Nodup)
    (hres : ∀ req ∈ items, ∀ p, findById orig req.productId = some p → p.variants ≠ []) :
    ∀ (db : Db), db.map stripFirstStock = orig.map stripFirstStock →
    (applyUpdates db items).1.map stripFirstStock = orig.map stripFirstStock := by
  induction items with
  | nil => intro db hstrip; exact hstrip
  | cons item rest ih =>
    intro db hstrip
    simp only [applyUpdates]
    cases hu : updateStock db item.productId (-item.quantity) with
    | notFound =>
      exact ih (fun r hr => hres r (List.mem_cons_of_mem item hr)) db hstrip
    | insufficient => exact hstrip
    | ok db2 =>
      have hstrip2 := updateStock_strip orig db db2 item.productId (-item.quantity) hnd hstrip
        (hres item (List.mem_cons_self item rest)) hu
      exact ih (fun r hr => hres r (List.mem_cons_of_mem item hr)) db2 hstrip2

/-- C10: a sale request carries only product ids and quantities, and
every read and write a sale performs concerns only the product's first
variant: each committed line's unit price is the resolved product's
first variant's selling price (or base price without variants), the
stock check compares the quantity against the first variant's stock (or
0), and committing changes nothing but first variants' stock values —
every product's identity, prices, and non-first variants (seen through
`stripFirstStock`) are untouched. -/
theorem sale_uses_first_variant_only (st : SaleState) (dto : CreateSaleDto) (now : Ts)
    (sale : Sale) (st2 : SaleState)
    (hnd : (st.products.map (·.pid)).Nodup)
    (h : createSale st dto now = (.ok sale, st2)) :
    (∀ it ∈ sale.items, 0 < it.quantity ∧ ∃ p, findById st.products it.productId = some p ∧
      it.price = firstVariantPrice p ∧ it.quantity ≤ firstVariantStock p) ∧
    st2.products.map stripFirstStock = st.products.map stripFirstStock := by
  unfold createSale at h
  split at h
  case isTrue => exact absurd h (by simp)
  case isFalse hne2 =>
    cases hpi : processItems st.products dto.items [] 0 with
    | error e => rw [hpi] at h; exact absurd h (by simp)
    | ok pr =>
      obtain ⟨saleItems, total⟩ := pr
      rw [hpi] at h
      dsimp only at h
      obtain ⟨⟨newItems, hres1, hres2x, hall⟩, hreq⟩ := processItems_ok _ _ _ _ _ hpi
      dsimp only at hres1
      simp only [List.nil_append] at hres1
      subst hres1
      rcases hau : applyUpdates st.products dto.items with ⟨db2, b⟩
      rw [hau] at h
      cases b with
      | false =>
        dsimp only at h
        exact absurd ((Prod.mk.injEq _ _ _ _).mp h).1 (by simp)
      | true =>
        dsimp only at h
        obtain ⟨h1, h2⟩ := (Prod.mk.injEq _ _ _ _).mp h
        have hsale := (Except.ok.injEq _ _).mp h1
        subst hsale
        constructor
        · intro it hit
          obtain ⟨hq, p, hp, hpr, hstk⟩ := hall it hit
          exact ⟨hq, p, hp, hpr, hstk⟩
        · have hresvar : ∀ req ∈ dto.items, ∀ p,
              findById st.products req.productId = some p → p.variants ≠ [] := by
            intro req hreqm p hp hnil
            obtain ⟨hq, p2, hp2, hstk⟩ := hreq req hreqm
            rw [hp] at hp2
            have hpp : p = p2 := (Option.some.injEq _ _).mp hp2
            subst hpp
            have : firstVariantStock p = 0 := by simp [firstVariantStock, hnil]
            omega
          have hstrip := applyUpdates_strip st.products dto.items hnd hresvar st.products rfl
          rw [hau] at hstrip
          rw [← h2]
          exact hstrip

/-- C10 witness. -/
theorem sale_uses_first_variant_only_witness :
    (exState.products.map (·.pid)).Nodup ∧
    (∃ sale st2, createSale exState exDtoSingle exTs = (.ok sale, st2) ∧
      ((∀ it ∈ sale.items, 0 < it.quantity ∧
        ∃ p, findById exState.products it.productId = some p ∧
          it.price = firstVariantPrice p ∧ it.quantity ≤ firstVariantStock p) ∧
       st2.products.map stripFirstStock = exState.products.map stripFirstStock)) := by
  refine ⟨by decide, _, _, rfl, ?_⟩
  exact sale_uses_first_variant_only exState exDtoSingle exTs _ _ (by decide) rfl

end POS
